import Mathlib

/-!
Verification of the Truth-Social market-signal monitor (src/monitor.py).

The embedding models text as `List Char` (Python `str`), the two regexes of
the Groq answer parser as explicit scanners with Python's leftmost,
non-overlapping `findall` semantics (including the backtracking of the greedy
`\s*` before `(.+)`), the main loop as a fold over the reversed post list, the
retry loop of `fetch_json_with_retries` as a step function iterated a given
number of times (the loop itself need not terminate), and `pick_free_proxy`
as structural recursion over the provider outcomes.  Randomness
(`random.shuffle`, user-agent choice) is modelled by quantifying over the
already-permuted inputs; network and classifier answers are inputs
(`Option`-valued outcomes, `none` standing for a raised-and-caught
exception).  The whitespace class is the ASCII one; case-insensitive
matching follows CPython `re.IGNORECASE` on `str` exactly for the letters
the patterns contain, including the Unicode extra case equivalences
(`ı`/`İ` for `i`, `ſ` for `s`), which were verified against CPython over
all of Unicode.
-/

set_option maxRecDepth 20000

namespace SocialMonitor

/-- The ASCII whitespace class of Python's regex `\s` and of `str.strip`:
space, tab, newline, carriage return, vertical tab, form feed. -/
def pyIsSpace (c : Char) : Bool :=
  c == ' ' || c == '\t' || c == '\n' || c == '\r' || c == '\x0b' || c == '\x0c'

/-- Python `str.strip()`: remove leading and trailing whitespace. -/
def pyStrip (s : List Char) : List Char :=
  ((s.dropWhile pyIsSpace).reverse.dropWhile pyIsSpace).reverse

/-- `str.strip()` on `String`. -/
def pyStripS (s : String) : String :=
  String.mk (pyStrip s.data)

/-- One lowercase pattern letter of a case-insensitively compiled literal
against one text character, as CPython `re.IGNORECASE` matches on `str`:
the text character's simple Unicode lowercase must equal the pattern
letter, together with sre's extra case equivalences.  For the letters this
module's patterns contain that means: `i` also matches dotless `ı` (U+0131)
and dotted `İ` (U+0130), `s` also matches long `ſ` (U+017F), and every
other letter matches exactly its ASCII case pair (the only remaining
non-ASCII simple lowercase into ASCII is the Kelvin sign for `k`, and no
pattern here contains `k`).  Verified against CPython over every Unicode
code point for each pattern letter. -/
def ciMatchChar (p c : Char) : Bool :=
  if p = 'i' then c == 'i' || c == 'I' || c == 'ı' || c == 'İ'
  else if p = 's' then c == 's' || c == 'S' || c == 'ſ'
  else c.toLower == p

/-- Case-insensitive literal match at the start of the text: the pattern is
given in lowercase; on success returns the matched characters (original case)
and the remainder. -/
def ciStartsWith : List Char → List Char → Option (List Char × List Char)
  | [], s => some ([], s)
  | _ :: _, [] => none
  | p :: ps, c :: cs =>
    if ciMatchChar p c then
      match ciStartsWith ps cs with
      | some (m, r) => some (c :: m, r)
      | none => none
    else none

/-- One attempted match of `_cls_pat`, the pattern
`classification\s*:\s*(bullish|bearish|neutral)` (case-insensitive), anchored
at the start of the text; returns the captured group and the remainder after
the whole match.  The greedy `\s*` runs are deterministic because `:` and the
label letters are not whitespace. -/
def matchClsAt (s : List Char) : Option (List Char × List Char) :=
  match ciStartsWith (String.toList ("classification")) s with
  | none => none
  | some (_, r1) =>
    match r1.dropWhile pyIsSpace with
    | ':' :: r3 =>
      match ciStartsWith (String.toList ("bullish")) (r3.dropWhile pyIsSpace) with
      | some (g, r5) => some (g, r5)
      | none =>
        match ciStartsWith (String.toList ("bearish")) (r3.dropWhile pyIsSpace) with
        | some (g, r5) => some (g, r5)
        | none =>
          match ciStartsWith (String.toList ("neutral")) (r3.dropWhile pyIsSpace) with
          | some (g, r5) => some (g, r5)
          | none => none
    | _ => none

/-- The tail `\s*(.+)` of `_exp_pat` applied to the text after the colon,
with Python's backtracking: the greedy `\s*` (which crosses newlines) gives
characters back until `.+` can take at least one character, and `.` matches
anything but a newline.  If a non-whitespace character follows the whitespace
run, the group is the non-newline run from there; if the text is whitespace
to its end, the group is the last non-newline whitespace character, if any. -/
def expTail (r : List Char) : Option (List Char × List Char) :=
  match r.dropWhile pyIsSpace with
  | c :: cs =>
    some ((c :: cs).takeWhile (fun d => !(d == '\n')),
          (c :: cs).dropWhile (fun d => !(d == '\n')))
  | [] =>
    match r.reverse.dropWhile (fun d => d == '\n') with
    | [] => none
    | d :: _ => some ([d], (r.reverse.takeWhile (fun d => d == '\n')).reverse)

/-- One attempted match of `_exp_pat`, the pattern `explanation\s*:\s*(.+)`
(case-insensitive), anchored at the start of the text; returns the captured
group and the remainder after the whole match. -/
def matchExpAt (s : List Char) : Option (List Char × List Char) :=
  match ciStartsWith (String.toList ("explanation")) s with
  | none => none
  | some (_, r1) =>
    match r1.dropWhile pyIsSpace with
    | ':' :: r3 => expTail r3
    | _ => none

/-- The scan of `Pattern.findall`: at each position try a match; on success
record the group and continue after the matched span, otherwise advance one
character.  Fuel bounds the recursion; fuel equal to the text length
suffices, because a successful match consumes at least one character (both
patterns start with a nonempty literal) and a failure advances one. -/
def findallGo (matchAt : List Char → Option (List Char × List Char)) :
    Nat → List Char → List (List Char)
  | 0, _ => []
  | _ + 1, [] => []
  | fuel + 1, c :: rest =>
    match matchAt (c :: rest) with
    | some (g, r) => g :: findallGo matchAt fuel r
    | none => findallGo matchAt fuel rest

/-- `_cls_pat.findall(text)`. -/
def findall_cls (s : List Char) : List (List Char) :=
  findallGo matchClsAt s.length s

/-- `_exp_pat.findall(text)`. -/
def findall_exp (s : List Char) : List (List Char) :=
  findallGo matchExpAt s.length s

/-- `_last_match`: `matches[-1].strip() if matches else None`. -/
def lastMatchOf (ms : List (List Char)) : Option (List Char) :=
  ms.getLast?.map pyStrip

/-- `_last_match(_cls_pat, text)`. -/
def last_match_cls (text : List Char) : Option (List Char) :=
  lastMatchOf (findall_cls text)

/-- `_last_match(_exp_pat, text)`. -/
def last_match_exp (text : List Char) : Option (List Char) :=
  lastMatchOf (findall_exp text)

/-- `CONFIDENCE_THRESHOLD = 0.80`, the exact rational 4/5 in lowest terms
(see `CONFIDENCE_THRESHOLD_eq`). -/
def CONFIDENCE_THRESHOLD : ℚ := ⟨4, 5, by norm_num, by norm_num⟩

/-- Python's lexicographic (code-point) strict comparison of strings, as
`<` compares two `str` values; a proper initial segment is smaller. -/
def strLtb : List Char → List Char → Bool
  | [], [] => false
  | [], _ :: _ => true
  | _ :: _, [] => false
  | a :: as, b :: bs =>
    if a.toNat < b.toNat then true
    else if b.toNat < a.toNat then false
    else strLtb as bs

/-- Python `a <= b` on strings: not `b < a` (the order is total). -/
def strLeb (a b : String) : Bool := !(strLtb b.data a.data)

/-- Python `str.lower()` on one character, as a string (full lowercasing
can expand a character): written out exactly for every character a captured
classification group can contain — ASCII, where it is ASCII lowercasing;
the already-lowercase `ı` and `ſ`, unchanged; and `İ`, whose full lowercase
is `i` followed by combining dot above (U+0307), matching CPython. -/
def lowerChar (c : Char) : List Char :=
  if c = 'İ' then ['i', '\u0307'] else [c.toLower]

/-- Python `str.lower()` over a whole string. -/
def pyLowerStr : List Char → List Char
  | [] => []
  | c :: t => lowerChar c ++ pyLowerStr t

/-- `analyze_post_with_groq`, with the transport made explicit: the argument
is `none` when the POST to the Groq endpoint raises (the `except` branch
returns `(None, None, 0.0)`), otherwise the response text.  On a response,
take the last match of each pattern; Python's `if classification and
explanation` is truthiness, so a missing match (`None`) and an
empty-after-strip match (`""`) both fail the parse.  On success the label is
lowercased with `str.lower()` and the confidence is exactly 1.0, otherwise
0.0. -/
def analyze_post_with_groq (resp : Option (List Char)) :
    Option (List Char) × Option (List Char) × ℚ :=
  match resp with
  | none => (none, none, 0)
  | some content =>
    match last_match_cls content, last_match_exp content with
    | some c, some e =>
      if c = [] ∨ e = [] then (none, none, 0)
      else (some (pyLowerStr c), some e, 1)
    | _, _ => (none, none, 0)

/-- `re.sub(r"<[^>]+>", "", html)`: delete every leftmost `<`, one or more
non-`>` characters, `>` span; a `<` immediately followed by `>` or with no
closing `>` is kept and scanning moves on by one character.  Fuel equal to
the text length suffices: every step consumes at least one character. -/
def stripTagsGo : Nat → List Char → List Char
  | 0, s => s
  | _ + 1, [] => []
  | fuel + 1, c :: rest =>
    if c = '<' then
      match rest.dropWhile (fun d => !(d == '>')) with
      | '>' :: tl =>
        if rest.takeWhile (fun d => !(d == '>')) = [] then c :: stripTagsGo fuel rest
        else stripTagsGo fuel tl
      | _ => c :: stripTagsGo fuel rest
    else c :: stripTagsGo fuel rest

/-- `strip_html(html)`: remove tags, then `str.strip()`. -/
def strip_html (html : String) : String :=
  String.mk (pyStrip (stripTagsGo html.data.length html.data))

/-- A fetched post: `post.get("id")` (`none` when the key is missing) and
`post.get("content", "")`. -/
structure Post where
  id : Option String
  content : String
deriving DecidableEq

/-- What `send_telegram_message` does: with credentials missing it logs a
warning and sends nothing; otherwise it POSTs, and an `Exception` from the
POST is caught and logged.  The function is total — no failure escapes to
the caller. -/
inductive SendResult where
  | noCreds
  | delivered
  | errorLogged (msg : String)
deriving DecidableEq

/-- `send_telegram_message`, with the POST's outcome an input. -/
def send_telegram_message (creds : Bool) (outcome : Except String Unit) : SendResult :=
  if creds then
    match outcome with
    | .ok _ => .delivered
    | .error e => .errorLogged e
  else .noCreds

/-- The run's external collaborators: the classifier transport per stripped
post text (`none` = request error), the Telegram credentials, and the
outcome of each attempted notification POST. -/
structure Env where
  responses : String → Option (List Char)
  creds : Bool
  notifyOutcome : String → Except String Unit

/-- The observable state of one run of `main`: the watermark document
(`db`, initialized to the stored value and overwritten by each
`update_last_processed`), the notifications handed to
`send_telegram_message` with each one's outcome, the number of classifier
calls, and the sequence of watermark writes. -/
structure MState where
  db : Option String
  sent : List (String × SendResult)
  calls : Nat
  writes : List String
deriving DecidableEq

/-- The guard `last_processed and post_id <= last_processed`: Python
truthiness (`None` and `""` are falsy) and lexicographic string
comparison. -/
def truthyLe (lastProcessed : Option String) (pid : String) : Bool :=
  match lastProcessed with
  | none => false
  | some lp => !(lp == "") && strLeb pid lp

/-- The alert text
`f"{classification.upper()}: {post_text}\n\nReason: {explanation}"`
(an absent explanation would print as `None`). -/
def mkMessage (classification : List Char) (postText : String)
    (explanation : Option (List Char)) : String :=
  String.mk (classification.map Char.toUpper) ++ (": ") ++ postText
    ++ ("\n\nReason: ")
    ++ String.mk (match explanation with | some e => e | none => String.toList ("None"))

/-- One iteration of the loop body of `main` over one post, in source order:
skip on a falsy id; skip on the watermark guard (against the value read once
before the loop); empty stripped text advances the watermark without a
classifier call; otherwise call the classifier, drop the post (for a later
run) when the label is `None` or the confidence is below the threshold, send
a Telegram alert only for bullish/bearish, and advance the watermark. -/
def processPost (env : Env) (lastProcessed : Option String) (st : MState)
    (post : Post) : MState :=
  match post.id with
  | none => st
  | some pid =>
    if pid == "" then st
    else if truthyLe lastProcessed pid then st
    else
      let postText := strip_html post.content
      if postText == "" then
        { st with db := some pid, writes := st.writes ++ [pid] }
      else
        let r := analyze_post_with_groq (env.responses postText)
        let st1 : MState := { st with calls := st.calls + 1 }
        match r.1 with
        | none => st1
        | some classification =>
          if r.2.2 < CONFIDENCE_THRESHOLD then st1
          else
            let st2 : MState :=
              if classification = String.toList ("bullish")
                  ∨ classification = String.toList ("bearish") then
                let msg := mkMessage classification postText r.2.1
                { st1 with
                  sent := st1.sent
                    ++ [(msg, send_telegram_message env.creds (env.notifyOutcome msg))] }
              else st1
            { st2 with db := some pid, writes := st2.writes ++ [pid] }

/-- `main`: read the watermark once, then process the fetched (newest-first)
posts in reverse, oldest first.  `stored` is what `get_last_processed`
returned; side-effect logs start empty for the run. -/
def runMain (env : Env) (stored : Option String) (posts : List Post) : MState :=
  posts.reverse.foldl (processPost env stored)
    { db := stored, sent := [], calls := 0, writes := [] }

/-- The watermark-write decision of one loop iteration, as a function of the
post alone (the guard compares against the once-read stored value, and the
classifier outcome depends only on the stripped text): `some pid` exactly
when the iteration calls `update_last_processed(pid)`. -/
def writePred (env : Env) (stored : Option String) (post : Post) : Option String :=
  match post.id with
  | none => none
  | some pid =>
    if pid == "" then none
    else if truthyLe stored pid then none
    else
      let postText := strip_html post.content
      if postText == "" then some pid
      else
        let r := analyze_post_with_groq (env.responses postText)
        match r.1 with
        | none => none
        | some _ => if r.2.2 < CONFIDENCE_THRESHOLD then none else some pid

/-- The post was classified and accepted: nonempty stripped text, a parsed
label, and confidence at or above the threshold. -/
def classifiedOk (env : Env) (post : Post) : Prop :=
  strip_html post.content ≠ ""
    ∧ (analyze_post_with_groq (env.responses (strip_html post.content))).1 ≠ none
    ∧ ¬ (analyze_post_with_groq (env.responses (strip_html post.content))).2.2
        < CONFIDENCE_THRESHOLD

/-- A terminal outcome for a post: empty stripped content, or classified and
accepted. -/
def terminalOutcome (env : Env) (post : Post) : Prop :=
  strip_html post.content = "" ∨ classifiedOk env post

/-- The post reached the classifier and was dropped: nonempty stripped text
and either no parsed label or confidence below the threshold. -/
def failsClassification (env : Env) (post : Post) : Prop :=
  strip_html post.content ≠ ""
    ∧ ((analyze_post_with_groq (env.responses (strip_html post.content))).1 = none
      ∨ (analyze_post_with_groq (env.responses (strip_html post.content))).2.2
          < CONFIDENCE_THRESHOLD)

/-- Strict id order between two posts, trivially true unless both ids are
present (used pairwise over lists whose ids are all present). -/
def idLtB (p q : Post) : Bool :=
  match p.id, q.id with
  | some a, some b => strLtb a.data b.data
  | _, _ => true

/-- One observed outcome of one GET inside `fetch_json_with_retries`: a
response with its status code and whether `resp.json()` would succeed, or an
exception raised by the GET itself. -/
inductive HttpOutcome where
  | status (code : Nat) (jsonOk : Bool)
  | exc
deriving DecidableEq

/-- The events the retry loop performs, in order: each GET it issues (with
the route in use) and any sleep.  No statement of the source's loop sleeps,
so no transition below emits `slept`. -/
inductive FetchEvent where
  | attemptIssued (viaProxy : Option String)
  | slept (seconds : ℚ)
deriving DecidableEq

/-- The loop state of `fetch_json_with_retries`: GETs issued so far (`n`,
indexing `outcomes`), the source's `attempt` counter, the current proxy, and
the event trace. -/
structure FetchState where
  n : Nat
  attempt : Nat
  proxy : Option String
  trace : List FetchEvent
deriving DecidableEq

/-- Result of running the loop some number of iterations: still looping,
returned (`resp.json()`), or fell out of the loop into `sys.exit(1)`. -/
inductive FetchRes where
  | running (s : FetchState)
  | ok (s : FetchState)
  | fatal (s : FetchState)
deriving DecidableEq

/-- Whether the try-block raises for this outcome: a JSON-decode failure on a
200, the explicit `raise` for {403, 429, 502, 503}, `raise_for_status` for
codes ≥ 400, or an exception from the GET.  A non-200 code below 400 raises
nothing. -/
def raisesFailure : HttpOutcome → Bool
  | .status 200 jsonOk => !jsonOk
  | .status code _ =>
    code == 403 || code == 429 || code == 502 || code == 503 || decide (400 ≤ code)
  | .exc => true

/-- A 200 whose body decodes: the `return resp.json()` path. -/
def isSuccess : HttpOutcome → Bool
  | .status 200 jsonOk => jsonOk
  | _ => false

/-- One iteration of the `while True` loop.  On success, return.  On a raised
exception: `attempt += 1`; past the budget, break out (fatal); otherwise the
next route is the manual proxy on the first retry if configured, else a pool
proxy (`none` falls back to direct).  On a non-200 response below 400 the
body falls through after `raise_for_status()` and the loop repeats with
`attempt` unchanged. -/
def fetch_step (manual : Option String) (pick : Nat → Option String)
    (maxProxyAttempts : Nat) (outcomes : Nat → HttpOutcome) (s : FetchState) :
    FetchRes :=
  let o := outcomes s.n
  let s0 : FetchState :=
    { s with n := s.n + 1, trace := s.trace ++ [FetchEvent.attemptIssued s.proxy] }
  if isSuccess o then .ok s0
  else if raisesFailure o then
    let a := s.attempt + 1
    if maxProxyAttempts < a then .fatal { s0 with attempt := a }
    else
      let p := if a == 1 && manual.isSome then manual else pick s.n
      .running { s0 with attempt := a, proxy := p }
  else .running s0

/-- `fetch_json_with_retries` run for `k` loop iterations (the loop itself
need not terminate); terminal results absorb. -/
def fetchRun (manual : Option String) (pick : Nat → Option String)
    (maxProxyAttempts : Nat) (outcomes : Nat → HttpOutcome) : Nat → FetchRes
  | 0 => .running { n := 0, attempt := 0, proxy := none, trace := [] }
  | k + 1 =>
    match fetchRun manual pick maxProxyAttempts outcomes k with
    | .running s => fetch_step manual pick maxProxyAttempts outcomes s
    | r => r

/-- The sleep events of a trace. -/
def sleepEvents (tr : List FetchEvent) : List FetchEvent :=
  tr.filter (fun e => match e with | .slept _ => true | _ => false)

/-- The trace held by a loop result. -/
def traceOf : FetchRes → List FetchEvent
  | .running s => s.trace
  | .ok s => s.trace
  | .fatal s => s.trace

/-- The candidate pool built from one provider's (already split and
shuffled) lines: `[ln.strip() for ln in txt.splitlines() if ln.strip()]`
truncated to `MAX_CANDIDATES = 30`. -/
def providerPool (lines : List String) : List String :=
  ((lines.map pyStripS).filter (fun l => !(l == ""))).take 30

/-- Whether `"://" in proxy`. -/
def hasSchemeSep : List Char → Bool
  | ':' :: '/' :: '/' :: _ => true
  | _ :: rest => hasSchemeSep rest
  | [] => false

/-- `proxy if "://" in proxy else f"http://{proxy}"`. -/
def normalizeProxy (p : String) : String :=
  if hasSchemeSep p.data then p else ("http://") ++ p

/-- `pick_free_proxy`: walk the (already shuffled) provider list; stop with
`None` when the 20-second budget has expired (`timedOut` per iteration);
a provider whose fetch raises (`none`) is caught and skipped; an empty pool
is skipped; otherwise the first candidate the concurrent verification
accepts (in pool order, as `zip(pool, exe.map(...))` yields) is returned,
normalized; with no winner the next provider is tried; with providers
exhausted the function returns `None` — never an exception. -/
def pick_free_proxy (timedOut : Nat → Bool) (works : String → Bool) :
    Nat → List (Option (List String)) → Option String
  | _, [] => none
  | i, p :: rest =>
    if timedOut i then none
    else
      match p with
      | none => pick_free_proxy timedOut works (i + 1) rest
      | some lines =>
        let pool := providerPool lines
        if pool.isEmpty then pick_free_proxy timedOut works (i + 1) rest
        else
          match pool.find? works with
          | some proxy => some (normalizeProxy proxy)
          | none => pick_free_proxy timedOut works (i + 1) rest

/-- A provider that fails or yields an empty candidate pool. -/
def providerEmpty : Option (List String) → Bool
  | none => true
  | some lines => (providerPool lines).isEmpty

/-- A fully successful parse: a transport response arrived and both last
matches exist and are nonempty after stripping. -/
def parseFullSuccess (resp : Option (List Char)) : Prop :=
  ∃ content c e, resp = some content
    ∧ last_match_cls content = some c ∧ last_match_exp content = some e
    ∧ c ≠ [] ∧ e ≠ []

/-- The watermark value after a sequence of writes on top of `d`: the last
write if there is one. -/
def lastWriteOr (d : Option String) (ws : List String) : Option String :=
  match ws.getLast? with
  | some w => some w
  | none => d

/-- How many classifier calls one loop iteration makes (0 or 1). -/
def callsDelta (lastProcessed : Option String) (post : Post) : Nat :=
  match post.id with
  | none => 0
  | some pid =>
    if pid == "" then 0
    else if truthyLe lastProcessed pid then 0
    else if strip_html post.content == "" then 0
    else 1

/-- The notifications one loop iteration hands to `send_telegram_message`,
with each one's outcome ([] or a single entry). -/
def sentDelta (env : Env) (lastProcessed : Option String) (post : Post) :
    List (String × SendResult) :=
  match post.id with
  | none => []
  | some pid =>
    if pid == "" then []
    else if truthyLe lastProcessed pid then []
    else
      let postText := strip_html post.content
      if postText == "" then []
      else
        let r := analyze_post_with_groq (env.responses postText)
        match r.1 with
        | none => []
        | some classification =>
          if r.2.2 < CONFIDENCE_THRESHOLD then []
          else if classification = String.toList ("bullish")
              ∨ classification = String.toList ("bearish") then
            [(mkMessage classification postText r.2.1,
              send_telegram_message env.creds (env.notifyOutcome (mkMessage classification postText r.2.1)))]
          else []

/-- A classifier answer in the required two-line format. -/
def goodReply : List Char :=
  String.toList ("Classification: bullish\nExplanation: ok")

/-- An environment whose classifier answers post text `x` in the required
format and whose notification POST always raises (caught inside
`send_telegram_message`). -/
def envGood : Env :=
  { responses := fun t => if t == ("x") then some goodReply else none,
    creds := true,
    notifyOutcome := fun _ => Except.error ("boom") }

/-- Two fetched posts, newest first: id 2 with empty content, id 1 with
content `x`. -/
def postsTwo : List Post :=
  [{ id := some ("2"), content := ("") }, { id := some ("1"), content := ("x") }]

/-- The older post of `postsTwo`. -/
def postLow : Post := { id := some ("1"), content := ("x") }

/-- A fresh run state with no stored watermark. -/
def st0 : MState := { db := none, sent := [], calls := 0, writes := [] }

/-- An environment whose classifier answers post text `y` with text that
matches neither pattern. -/
def envBad : Env :=
  { responses := fun t => if t == ("y") then some (String.toList ("no labels here")) else none,
    creds := true,
    notifyOutcome := fun _ => Except.ok () }

/-- Two fetched posts, newest first: id 2 empty, id 1 with content `y`
(whose classification will fail to parse). -/
def postsFail : List Post :=
  [{ id := some ("2"), content := ("") }, { id := some ("1"), content := ("y") }]

/-- The failing post of `postsFail`. -/
def postFail : Post := { id := some ("1"), content := ("y") }

/-- A classifier answer with two occurrences of each pattern (reasoning then
final answer). -/
def replyTwice : List Char :=
  String.toList
    ("Classification: BULLISH maybe\nExplanation: think\nClassification: neutral\nExplanation: final answer")

/-- A classifier answer where both patterns match but the explanation group
is whitespace only (the greedy backtracking captures a lone tab), which
Python truthiness then rejects. -/
def replyBlankExp : List Char :=
  String.toList ("Classification: bullish\nExplanation: \t\n")

/-- `g` matches the literal word `w` (given lowercase) letter by letter
under CPython `re.IGNORECASE`. -/
def isVariantOf (w g : List Char) : Prop :=
  List.Forall₂ (fun p c => ciMatchChar p c = true) w g

/-- A classifier answer whose label word uses the long s (U+017F), which
`re.IGNORECASE` accepts for the pattern letter `s` while `str.lower()`
leaves it unchanged. -/
def replyLongS : List Char :=
  String.toList ("Classification: bulliſh\nExplanation: ok")

/-- All notifications of a processed-in-order post list. -/
def sentLog (env : Env) (lastProcessed : Option String) : List Post → List (String × SendResult)
  | [] => []
  | p :: t => sentDelta env lastProcessed p ++ sentLog env lastProcessed t

/-- Classifier-call count of a processed-in-order post list. -/
def callsCount (lastProcessed : Option String) : List Post → Nat
  | [] => 0
  | p :: t => callsDelta lastProcessed p + callsCount lastProcessed t

/-! ### Parser lemmas -/

theorem ciStartsWith_matches :
    ∀ (p s m r : List Char), ciStartsWith p s = some (m, r) →
      List.Forall₂ (fun a b => ciMatchChar a b = true) p m := by
  intro p
  induction p with
  | nil =>
    intro s m r h
    simp [ciStartsWith] at h
    obtain ⟨h1, _⟩ := h
    subst h1
    exact List.Forall₂.nil
  | cons ph pt ih =>
    intro s m r h
    cases s with
    | nil => simp [ciStartsWith] at h
    | cons c cs =>
      simp only [ciStartsWith] at h
      split at h
      case isTrue hc =>
        cases hci : ciStartsWith pt cs with
        | none => rw [hci] at h; simp at h
        | some pr =>
          obtain ⟨m1, r1⟩ := pr
          rw [hci] at h
          simp only [Option.some.injEq, Prod.mk.injEq] at h
          obtain ⟨hm, hr⟩ := h
          subst hm
          exact List.Forall₂.cons hc (ih cs m1 r1 hci)
      case isFalse hc => simp at h

theorem matchClsAt_variant (s g r : List Char) (h : matchClsAt s = some (g, r)) :
    isVariantOf (String.toList ("bullish")) g
    ∨ isVariantOf (String.toList ("bearish")) g
    ∨ isVariantOf (String.toList ("neutral")) g := by
  unfold matchClsAt at h
  split at h
  · simp at h
  · split at h
    · split at h
      · rename_i heq
        simp at h
        exact Or.inl (h.1 ▸ ciStartsWith_matches _ _ _ _ heq)
      · split at h
        · rename_i heq
          simp at h
          exact Or.inr (Or.inl (h.1 ▸ ciStartsWith_matches _ _ _ _ heq))
        · split at h
          · rename_i heq
            simp at h
            exact Or.inr (Or.inr (h.1 ▸ ciStartsWith_matches _ _ _ _ heq))
          · simp at h
    · simp at h

theorem findallGo_mem {P : List Char → Prop}
    (matchAt : List Char → Option (List Char × List Char))
    (hP : ∀ s g r, matchAt s = some (g, r) → P g) :
    ∀ (fuel : Nat) (s g : List Char), g ∈ findallGo matchAt fuel s → P g := by
  intro fuel
  induction fuel with
  | zero => intro s g h; simp [findallGo] at h
  | succ f ih =>
    intro s g h
    cases s with
    | nil => simp [findallGo] at h
    | cons c rest =>
      simp only [findallGo] at h
      split at h
      · rename_i pr heq
        rcases List.mem_cons.mp h with h1 | h1
        · exact h1 ▸ hP _ _ _ heq
        · exact ih _ _ h1
      · exact ih _ _ h

theorem findall_cls_variant (text g : List Char) (h : g ∈ findall_cls text) :
    isVariantOf (String.toList ("bullish")) g
    ∨ isVariantOf (String.toList ("bearish")) g
    ∨ isVariantOf (String.toList ("neutral")) g := by
  exact findallGo_mem matchClsAt (fun s g r hm => matchClsAt_variant s g r hm) _ _ _ h

theorem mem_of_getLast?_some {α : Type} {l : List α} {a : α}
    (h : l.getLast? = some a) : a ∈ l := by
  obtain ⟨hne, hx⟩ := List.mem_getLast?_eq_getLast (show a ∈ l.getLast? from h)
  rw [hx]
  exact List.getLast_mem hne

theorem ciMatchChar_not_space (p c : Char) (hp : pyIsSpace p = false)
    (h : ciMatchChar p c = true) : pyIsSpace c = false := by
  unfold ciMatchChar at h
  by_cases hpi : p = 'i'
  · rw [if_pos hpi] at h
    have hd : ((c = 'i' ∨ c = 'I') ∨ c = 'ı') ∨ c = 'İ' := by
      simpa using h
    rcases hd with ((h1 | h1) | h1) | h1 <;> subst h1 <;> decide
  · rw [if_neg hpi] at h
    by_cases hps : p = 's'
    · rw [if_pos hps] at h
      have hd : (c = 's' ∨ c = 'S') ∨ c = 'ſ' := by
        simpa using h
      rcases hd with (h1 | h1) | h1 <;> subst h1 <;> decide
    · rw [if_neg hps] at h
      have hc : c.toLower = p := by simpa using h
      by_contra hsp
      have hsp' : pyIsSpace c = true := by
        cases hpy : pyIsSpace c
        · exact absurd hpy hsp
        · rfl
      have hd : ((((c = ' ' ∨ c = '\t') ∨ c = '\n') ∨ c = '\r') ∨ c = '\x0b') ∨ c = '\x0c' := by
        simpa [pyIsSpace] using hsp'
      have hcp : p = c := by
        rcases hd with ((((h1 | h1) | h1) | h1) | h1) | h1 <;> subst h1 <;>
          exact hc.symm
      subst hcp
      rw [hsp'] at hp
      exact absurd hp (by simp)

theorem variant_chars_not_space :
    ∀ (w g : List Char), (∀ p ∈ w, pyIsSpace p = false) → isVariantOf w g →
      ∀ c ∈ g, pyIsSpace c = false := by
  intro w
  induction w with
  | nil =>
    intro g hw h c hc
    cases h
    simp at hc
  | cons a as ih =>
    intro g hw h c hc
    cases h with
    | cons hab htail =>
      rcases List.mem_cons.mp hc with h1 | h1
      · subst h1
        exact ciMatchChar_not_space a c (hw a (by simp)) hab
      · exact ih _ (fun p hp => hw p (by simp [hp])) htail c h1

theorem pyStrip_of_no_space (g : List Char) (h : ∀ c ∈ g, pyIsSpace c = false) :
    pyStrip g = g := by
  have k : ∀ (l : List Char), (∀ c ∈ l, pyIsSpace c = false) →
      l.dropWhile pyIsSpace = l := by
    intro l hl
    cases l with
    | nil => rfl
    | cons a t =>
      rw [List.dropWhile_cons]
      simp [hl a (by simp)]
  unfold pyStrip
  rw [k g h, k g.reverse (fun c hc => h c (List.mem_reverse.mp hc)),
    List.reverse_reverse]

theorem last_match_cls_variant (text c : List Char)
    (h : last_match_cls text = some c) :
    isVariantOf (String.toList ("bullish")) c
    ∨ isVariantOf (String.toList ("bearish")) c
    ∨ isVariantOf (String.toList ("neutral")) c := by
  unfold last_match_cls lastMatchOf at h
  cases hg : (findall_cls text).getLast? with
  | none => rw [hg] at h; simp at h
  | some g =>
    rw [hg] at h
    simp at h
    have hmem : g ∈ findall_cls text := mem_of_getLast?_some hg
    have hvar := findall_cls_variant text g hmem
    have hns : ∀ ch ∈ g, pyIsSpace ch = false := by
      rcases hvar with hv | hv | hv <;>
        exact variant_chars_not_space _ g (by decide) hv
    rw [← h, pyStrip_of_no_space g hns]
    exact hvar

/-- C3: for a classifier response whose text contains two or more
occurrences of each pattern, `_last_match` returns the (stripped) last
occurrence of each pattern and, whenever the first and last occurrences
differ, not the first. -/
theorem parser_takes_last_match (content f l fe le : List Char)
    (h1 : 2 ≤ (findall_cls content).length)
    (h2 : 2 ≤ (findall_exp content).length)
    (hf : (findall_cls content).head? = some f)
    (hl : (findall_cls content).getLast? = some l)
    (hfe : (findall_exp content).head? = some fe)
    (hle : (findall_exp content).getLast? = some le) :
    last_match_cls content = some (pyStrip l)
    ∧ last_match_exp content = some (pyStrip le)
    ∧ (pyStrip f ≠ pyStrip l → last_match_cls content ≠ some (pyStrip f))
    ∧ (pyStrip fe ≠ pyStrip le → last_match_exp content ≠ some (pyStrip fe)) := by
  have e1 : last_match_cls content = some (pyStrip l) := by
    unfold last_match_cls lastMatchOf
    rw [hl]
    rfl
  have e2 : last_match_exp content = some (pyStrip le) := by
    unfold last_match_exp lastMatchOf
    rw [hle]
    rfl
  refine ⟨e1, e2, ?_, ?_⟩
  · intro hne hcontra
    rw [e1] at hcontra
    exact hne (Option.some.inj hcontra).symm
  · intro hne hcontra
    rw [e2] at hcontra
    exact hne (Option.some.inj hcontra).symm

/-- Witness for C3 on a concrete reasoning-then-answer response: the parser
returns `neutral` / `final answer` (the second occurrences), not `BULLISH` /
`think`. -/
theorem parser_takes_last_match_witness :
    last_match_cls replyTwice = some (pyStrip (String.toList ("neutral")))
    ∧ last_match_exp replyTwice = some (pyStrip (String.toList ("final answer")))
    ∧ (pyStrip (String.toList ("BULLISH")) ≠ pyStrip (String.toList ("neutral")) →
        last_match_cls replyTwice ≠ some (pyStrip (String.toList ("BULLISH"))))
    ∧ (pyStrip (String.toList ("think")) ≠ pyStrip (String.toList ("final answer")) →
        last_match_exp replyTwice ≠ some (pyStrip (String.toList ("think")))) :=
  parser_takes_last_match replyTwice (String.toList ("BULLISH"))
    (String.toList ("neutral")) (String.toList ("think"))
    (String.toList ("final answer")) (by decide) (by decide) (by decide)
    (by decide) (by decide) (by decide)

theorem lowerChar_of_ascii_match (p c : Char) (h : ciMatchChar p c = true)
    (hascii : c.toNat < 128) : lowerChar c = [p] := by
  unfold ciMatchChar at h
  by_cases hpi : p = 'i'
  · rw [if_pos hpi] at h
    subst hpi
    have hd : ((c = 'i' ∨ c = 'I') ∨ c = 'ı') ∨ c = 'İ' := by
      simpa using h
    rcases hd with ((h1 | h1) | h1) | h1 <;> subst h1
    · decide
    · decide
    · exact absurd hascii (by decide)
    · exact absurd hascii (by decide)
  · rw [if_neg hpi] at h
    by_cases hps : p = 's'
    · rw [if_pos hps] at h
      subst hps
      have hd : (c = 's' ∨ c = 'S') ∨ c = 'ſ' := by
        simpa using h
      rcases hd with (h1 | h1) | h1 <;> subst h1
      · decide
      · decide
      · exact absurd hascii (by decide)
    · rw [if_neg hps] at h
      have hc : c.toLower = p := by simpa using h
      unfold lowerChar
      rw [if_neg (show ¬ c = 'İ' from by
        intro hh
        subst hh
        exact absurd hascii (by decide))]
      rw [hc]

theorem pyLowerStr_of_ascii_variant :
    ∀ (w g : List Char), isVariantOf w g → (∀ ch ∈ g, ch.toNat < 128) →
      pyLowerStr g = w := by
  intro w
  induction w with
  | nil =>
    intro g h _
    cases h
    rfl
  | cons a as ih =>
    intro g h hascii
    cases h with
    | cons hab htail =>
      rename_i b l2
      show pyLowerStr (b :: l2) = a :: as
      simp only [pyLowerStr]
      rw [lowerChar_of_ascii_match a b hab (hascii b (by simp)),
        ih l2 htail (fun ch hch => hascii ch (by simp [hch]))]
      rfl

/-- C10 counterexample: on a response whose label word uses the long s
(U+017F), which CPython `re.IGNORECASE` accepts for the pattern letter `s`,
the parse succeeds with confidence 1.0 and returns the label `bulliſh` —
outside the set {bullish, bearish, neutral} — and the acceptance guard of
`main` passes, so this label reaches the notification gate (behavior
verified against CPython). -/
theorem label_outside_set_cex :
    analyze_post_with_groq (some replyLongS)
      = (some (String.toList ("bulliſh")), some (String.toList ("ok")), 1)
    ∧ ¬ (String.toList ("bulliſh") = String.toList ("bullish"))
    ∧ ¬ (String.toList ("bulliſh") = String.toList ("bearish"))
    ∧ ¬ (String.toList ("bulliſh") = String.toList ("neutral"))
    ∧ ¬ ((analyze_post_with_groq (some replyLongS)).1 = none
          ∨ (analyze_post_with_groq (some replyLongS)).2.2 < CONFIDENCE_THRESHOLD) :=
  ⟨by decide, by decide, by decide, by decide, by decide⟩

/-- C10 amended: the parse result is either the failure triple or a success
triple whose label is the `str.lower()` image of a letter-by-letter
`re.IGNORECASE` case variant of one of the three alternation words; for an
ASCII variant this is exactly one of bullish, bearish, neutral, but
CPython's Unicode case equivalences (`ı`/`İ` for `i`, `ſ` for `s`) admit
finitely many further labels, such as `bulliſh`, which pass the confidence
gate. -/
theorem label_is_case_variant (resp : Option (List Char)) :
    analyze_post_with_groq resp = (none, none, 0)
    ∨ ∃ l e g, analyze_post_with_groq resp = (some l, some e, 1)
      ∧ (isVariantOf (String.toList ("bullish")) g
        ∨ isVariantOf (String.toList ("bearish")) g
        ∨ isVariantOf (String.toList ("neutral")) g)
      ∧ l = pyLowerStr g
      ∧ ((∀ ch ∈ g, ch.toNat < 128) →
          l = String.toList ("bullish") ∨ l = String.toList ("bearish")
          ∨ l = String.toList ("neutral")) := by
  cases resp with
  | none => exact Or.inl rfl
  | some content =>
    cases hc : last_match_cls content with
    | none =>
      left
      cases he : last_match_exp content <;> simp [analyze_post_with_groq, hc, he]
    | some c =>
      cases he : last_match_exp content with
      | none => left; simp [analyze_post_with_groq, hc, he]
      | some e =>
        have hvar := last_match_cls_variant content c hc
        by_cases hemp : c = [] ∨ e = []
        · left
          simp only [analyze_post_with_groq, hc, he, if_pos hemp]
        · right
          refine ⟨pyLowerStr c, e, c, ?_, hvar, rfl, ?_⟩
          · simp only [analyze_post_with_groq, hc, he, if_neg hemp]
          · intro hascii
            rcases hvar with hv | hv | hv
            · exact Or.inl (pyLowerStr_of_ascii_variant _ c hv hascii)
            · exact Or.inr (Or.inl (pyLowerStr_of_ascii_variant _ c hv hascii))
            · exact Or.inr (Or.inr (pyLowerStr_of_ascii_variant _ c hv hascii))

/-- C7 counterexample: a response where both patterns match (each findall is
nonempty) and yet the confidence is 0.0, because the explanation group is
whitespace-only and Python truthiness rejects it after stripping. -/
theorem confidence_zero_despite_matches_cex :
    findall_cls replyBlankExp ≠ [] ∧ findall_exp replyBlankExp ≠ []
    ∧ analyze_post_with_groq (some replyBlankExp) = (none, none, 0)
    ∧ ¬ ((0 : ℚ) = 1) := by
  exact ⟨by decide, by decide, by decide, by norm_num⟩

/-- C7 amended: the confidence is always exactly 1.0 or 0.0; it is 1.0 iff
the parse fully succeeded (transport response present and both last matches
present and nonempty after stripping); and the downstream acceptance guard
of `main` passes iff the confidence is 1.0. -/
theorem confidence_one_iff_full_parse (resp : Option (List Char)) :
    ((analyze_post_with_groq resp).2.2 = 1 ∨ (analyze_post_with_groq resp).2.2 = 0)
    ∧ ((analyze_post_with_groq resp).2.2 = 1 ↔ parseFullSuccess resp)
    ∧ (¬ ((analyze_post_with_groq resp).1 = none
          ∨ (analyze_post_with_groq resp).2.2 < CONFIDENCE_THRESHOLD)
        ↔ (analyze_post_with_groq resp).2.2 = 1) := by
  cases resp with
  | none =>
    have hres : analyze_post_with_groq none = (none, none, 0) := rfl
    rw [hres]
    refine ⟨Or.inr rfl, ?_, ?_⟩
    · constructor
      · intro h; exact absurd h (by norm_num)
      · rintro ⟨content, c, e, hcon, -⟩; exact absurd hcon (by simp)
    · constructor
      · intro h; exact absurd (Or.inl rfl) h
      · intro h; exact absurd h (by norm_num)
  | some content =>
    cases hc : last_match_cls content with
    | none =>
      have hres : analyze_post_with_groq (some content) = (none, none, 0) := by
        cases he : last_match_exp content <;> simp [analyze_post_with_groq, hc, he]
      rw [hres]
      refine ⟨Or.inr rfl, ?_, ?_⟩
      · constructor
        · intro h; exact absurd h (by norm_num)
        · rintro ⟨content2, c2, e2, hcon, hc2, -⟩
          rw [Option.some.inj hcon] at hc
          rw [hc] at hc2
          exact absurd hc2 (by simp)
      · constructor
        · intro h; exact absurd (Or.inl rfl) h
        · intro h; exact absurd h (by norm_num)
    | some c =>
      cases he : last_match_exp content with
      | none =>
        have hres : analyze_post_with_groq (some content) = (none, none, 0) := by
          simp [analyze_post_with_groq, hc, he]
        rw [hres]
        refine ⟨Or.inr rfl, ?_, ?_⟩
        · constructor
          · intro h; exact absurd h (by norm_num)
          · rintro ⟨content2, c2, e2, hcon, -, he2, -⟩
            rw [Option.some.inj hcon] at he
            rw [he] at he2
            exact absurd he2 (by simp)
        · constructor
          · intro h; exact absurd (Or.inl rfl) h
          · intro h; exact absurd h (by norm_num)
      | some e =>
        by_cases hemp : c = [] ∨ e = []
        · have hres : analyze_post_with_groq (some content) = (none, none, 0) := by
            simp only [analyze_post_with_groq, hc, he, if_pos hemp]
          rw [hres]
          refine ⟨Or.inr rfl, ?_, ?_⟩
          · constructor
            · intro h; exact absurd h (by norm_num)
            · rintro ⟨content2, c2, e2, hcon, hc2, he2, hne1, hne2⟩
              have hcc : content2 = content := (Option.some.inj hcon).symm
              subst hcc
              rw [hc] at hc2
              rw [he] at he2
              rw [← Option.some.inj hc2] at hne1
              rw [← Option.some.inj he2] at hne2
              rcases hemp with h | h
              · exact (hne1 h).elim
              · exact (hne2 h).elim
          · constructor
            · intro h; exact absurd (Or.inl rfl) h
            · intro h; exact absurd h (by norm_num)
        · have hres : analyze_post_with_groq (some content)
              = (some (pyLowerStr c), some e, 1) := by
            simp only [analyze_post_with_groq, hc, he, if_neg hemp]
          rw [hres]
          push_neg at hemp
          refine ⟨Or.inl rfl, ?_, ?_⟩
          · constructor
            · intro _; exact ⟨content, c, e, rfl, hc, he, hemp.1, hemp.2⟩
            · intro _; rfl
          · constructor
            · intro _; rfl
            · intro _
              rintro (h | h)
              · exact absurd h (by simp)
              · exact absurd (show (1 : ℚ) < CONFIDENCE_THRESHOLD from h) (by decide)

/-! ### Pipeline lemmas -/

theorem lastWriteOr_append (d : Option String) (xs ys : List String) :
    lastWriteOr d (xs ++ ys) = lastWriteOr (lastWriteOr d xs) ys := by
  unfold lastWriteOr
  cases hys : ys.getLast? with
  | some w =>
    have hne : ys ≠ [] := by
      intro h
      rw [h] at hys
      simp at hys
    rw [List.getLast?_append_of_ne_nil xs hne, hys]
  | none =>
    rw [List.getLast?_eq_none_iff.mp hys, List.append_nil]

theorem processPost_char (env : Env) (lastP : Option String) (st : MState)
    (post : Post) :
    processPost env lastP st post
      = { db := lastWriteOr st.db (writePred env lastP post).toList,
          sent := st.sent ++ sentDelta env lastP post,
          calls := st.calls + callsDelta lastP post,
          writes := st.writes ++ (writePred env lastP post).toList } := by
  cases hid : post.id with
  | none => simp [processPost, writePred, callsDelta, sentDelta, lastWriteOr, hid]
  | some pid =>
    simp only [processPost, writePred, callsDelta, sentDelta, hid]
    by_cases h1 : (pid == ("")) = true
    · simp [h1, lastWriteOr]
    · simp only [h1, if_false, Bool.false_eq_true]
      by_cases h2 : truthyLe lastP pid = true
      · simp [h2, lastWriteOr]
      · simp only [h2, if_false, Bool.false_eq_true]
        by_cases h3 : (strip_html post.content == ("")) = true
        · simp [h3, lastWriteOr]
        · simp only [h3, if_false, Bool.false_eq_true]
          cases hr : (analyze_post_with_groq (env.responses (strip_html post.content))).1 with
          | none => simp [hr, lastWriteOr]
          | some classification =>
            simp only [hr]
            by_cases h4 :
                (analyze_post_with_groq (env.responses (strip_html post.content))).2.2
                  < CONFIDENCE_THRESHOLD
            · simp [h4, lastWriteOr]
            · simp only [h4, if_false]
              by_cases h5 : classification = String.toList ("bullish")
                  ∨ classification = String.toList ("bearish")
              · simp only [if_pos h5]
                simp [lastWriteOr]
              · simp only [if_neg h5]
                simp [lastWriteOr]

theorem foldl_char (env : Env) (lastP : Option String) :
    ∀ (L : List Post) (st : MState),
      List.foldl (processPost env lastP) st L
        = { db := lastWriteOr st.db (L.filterMap (writePred env lastP)),
            sent := st.sent ++ sentLog env lastP L,
            calls := st.calls + callsCount lastP L,
            writes := st.writes ++ L.filterMap (writePred env lastP) } := by
  intro L
  induction L with
  | nil =>
    intro st
    simp [sentLog, callsCount, lastWriteOr]
  | cons p t ih =>
    intro st
    have hstep := processPost_char env lastP st p
    have hcons : (p :: t).filterMap (writePred env lastP)
        = (writePred env lastP p).toList ++ t.filterMap (writePred env lastP) := by
      cases h : writePred env lastP p <;> simp [List.filterMap_cons, h]
    calc List.foldl (processPost env lastP) st (p :: t)
        = List.foldl (processPost env lastP) (processPost env lastP st p) t := rfl
      _ = _ := by
          rw [ih (processPost env lastP st p), hstep, hcons, lastWriteOr_append]
          simp [sentLog, callsCount, List.append_assoc, Nat.add_assoc]

theorem runMain_char (env : Env) (stored : Option String) (posts : List Post) :
    runMain env stored posts
      = { db := lastWriteOr stored (posts.reverse.filterMap (writePred env stored)),
          sent := sentLog env stored posts.reverse,
          calls := callsCount stored posts.reverse,
          writes := posts.reverse.filterMap (writePred env stored) } := by
  unfold runMain
  rw [foldl_char]
  simp

theorem writePred_some (env : Env) (stored : Option String) (post : Post)
    (w : String) (h : writePred env stored post = some w) :
    post.id = some w ∧ w ≠ ("") ∧ truthyLe stored w = false
      ∧ terminalOutcome env post := by
  cases hid : post.id with
  | none => simp [writePred, hid] at h
  | some pid =>
    simp only [writePred, hid] at h
    by_cases h1 : (pid == ("")) = true
    · simp [h1] at h
    · simp only [h1, if_false, Bool.false_eq_true] at h
      by_cases h2 : truthyLe stored pid = true
      · simp [h2] at h
      · simp only [h2, if_false, Bool.false_eq_true] at h
        have hpne : pid ≠ ("") := by simpa using h1
        have hsk : truthyLe stored pid = false := by
          cases htr : truthyLe stored pid
          · rfl
          · exact absurd htr h2
        by_cases h3 : (strip_html post.content == ("")) = true
        · rw [if_pos h3] at h
          have hw : pid = w := Option.some.inj h
          subst hw
          exact ⟨rfl, hpne, hsk, Or.inl (by simpa using h3)⟩
        · rw [if_neg h3] at h
          cases hr : (analyze_post_with_groq (env.responses (strip_html post.content))).1 with
          | none => rw [hr] at h; simp at h
          | some classification =>
            rw [hr] at h
            by_cases h4 :
                (analyze_post_with_groq (env.responses (strip_html post.content))).2.2
                  < CONFIDENCE_THRESHOLD
            · rw [if_pos h4] at h; simp at h
            · rw [if_neg h4] at h
              have hw : pid = w := Option.some.inj h
              subst hw
              refine ⟨rfl, hpne, hsk, Or.inr ⟨by simpa using h3, ?_, h4⟩⟩
              rw [hr]
              simp

theorem writePred_some_of (env : Env) (stored : Option String) (post : Post)
    (pid : String) (hid : post.id = some pid) (hne : pid ≠ (""))
    (hsk : truthyLe stored pid = false) (ht : terminalOutcome env post) :
    writePred env stored post = some pid := by
  simp only [writePred, hid]
  have h1 : ¬ ((pid == ("")) = true) := by simpa using hne
  have h2 : ¬ (truthyLe stored pid = true) := by simp [hsk]
  rw [if_neg h1, if_neg h2]
  rcases ht with hemp | hok
  · rw [if_pos (by simpa using hemp)]
  · obtain ⟨htxt, hcls, hconf⟩ := hok
    rw [if_neg (by simpa using htxt)]
    cases hr : (analyze_post_with_groq (env.responses (strip_html post.content))).1 with
    | none => exact absurd hr hcls
    | some classification => rw [if_neg hconf]

theorem pairwise_getLast_ub {α : Type} {R : α → α → Prop} :
    ∀ {l : List α} {m : α}, l.Pairwise R → l.getLast? = some m →
      ∀ x ∈ l, x = m ∨ R x m := by
  intro l
  induction l with
  | nil => simp
  | cons a t ih =>
    intro m hp hm x hx
    cases t with
    | nil =>
      simp at hm hx
      subst hm
      exact Or.inl hx
    | cons b t2 =>
      rw [List.getLast?_cons_cons] at hm
      rcases List.mem_cons.mp hx with h1 | h1
      · subst h1
        exact Or.inr ((List.pairwise_cons.mp hp).1 m (mem_of_getLast?_some hm))
      · exact ih (List.pairwise_cons.mp hp).2 hm x h1

theorem processPost_noop (env : Env) (lastP : Option String) (st : MState)
    (post : Post)
    (h : ∀ pid, post.id = some pid → pid ≠ ("") → truthyLe lastP pid = true) :
    processPost env lastP st post = st := by
  cases hid : post.id with
  | none => simp [processPost, hid]
  | some pid =>
    simp only [processPost, hid]
    by_cases h1 : (pid == ("")) = true
    · simp [h1]
    · have hpne : pid ≠ ("") := by simpa using h1
      simp [h1, h pid hid hpne]

theorem foldl_noop (env : Env) (lastP : Option String) :
    ∀ (L : List Post) (st : MState),
      (∀ p ∈ L, ∀ pid, p.id = some pid → pid ≠ ("") → truthyLe lastP pid = true) →
      List.foldl (processPost env lastP) st L = st := by
  intro L
  induction L with
  | nil => intro st _; rfl
  | cons p t ih =>
    intro st h
    have hp := processPost_noop env lastP st p (h p (by simp))
    calc List.foldl (processPost env lastP) st (p :: t)
        = List.foldl (processPost env lastP) (processPost env lastP st p) t := rfl
      _ = st := by rw [hp]; exact ih st (fun q hq => h q (by simp [hq]))

/-! ### The lexicographic string order -/

theorem CONFIDENCE_THRESHOLD_eq : CONFIDENCE_THRESHOLD = 4 / 5 := by
  rw [CONFIDENCE_THRESHOLD, Rat.mk'_eq_divInt, Rat.divInt_eq_div]
  norm_num

theorem strLtb_irrefl : ∀ l : List Char, strLtb l l = false := by
  intro l
  induction l with
  | nil => rfl
  | cons a as ih => simp [strLtb, ih]

theorem strLtb_trans :
    ∀ a b c : List Char, strLtb a b = true → strLtb b c = true →
      strLtb a c = true := by
  intro a
  induction a with
  | nil =>
    intro b c h1 h2
    cases b with
    | nil => exact h2
    | cons bh bt =>
      cases c with
      | nil => simp [strLtb] at h2
      | cons ch ct => rfl
  | cons ah at2 ih =>
    intro b c h1 h2
    cases b with
    | nil => simp [strLtb] at h1
    | cons bh bt =>
      cases c with
      | nil => simp [strLtb] at h2
      | cons ch ct =>
        simp only [strLtb] at h1 h2 ⊢
        by_cases hab : ah.toNat < bh.toNat
        · by_cases hbc : bh.toNat < ch.toNat
          · rw [if_pos (Nat.lt_trans hab hbc)]
          · rw [if_neg hbc] at h2
            by_cases hcb : ch.toNat < bh.toNat
            · rw [if_pos hcb] at h2; exact absurd h2 (by simp)
            · have hbc2 : bh.toNat = ch.toNat :=
                Nat.le_antisymm (Nat.le_of_not_lt hcb) (Nat.le_of_not_lt hbc)
              rw [if_pos (hbc2 ▸ hab)]
        · rw [if_neg hab] at h1
          by_cases hba : bh.toNat < ah.toNat
          · rw [if_pos hba] at h1; exact absurd h1 (by simp)
          · have hab2 : ah.toNat = bh.toNat :=
              Nat.le_antisymm (Nat.le_of_not_lt hba) (Nat.le_of_not_lt hab)
            rw [if_neg hba] at h1
            by_cases hbc : bh.toNat < ch.toNat
            · rw [if_pos (hab2 ▸ hbc)]
            · rw [if_neg hbc] at h2
              by_cases hcb : ch.toNat < bh.toNat
              · rw [if_pos hcb] at h2; exact absurd h2 (by simp)
              · rw [if_neg hcb] at h2
                have hbc2 : bh.toNat = ch.toNat :=
                  Nat.le_antisymm (Nat.le_of_not_lt hcb) (Nat.le_of_not_lt hbc)
                rw [if_neg (by omega : ¬ ah.toNat < ch.toNat),
                  if_neg (by omega : ¬ ch.toNat < ah.toNat)]
                exact ih bt ct h1 h2

theorem strLtb_asymm :
    ∀ a b : List Char, strLtb a b = true → strLtb b a = false := by
  intro a
  induction a with
  | nil =>
    intro b h
    cases b with
    | nil => simp [strLtb] at h
    | cons bh bt => rfl
  | cons ah at2 ih =>
    intro b h
    cases b with
    | nil => simp [strLtb] at h
    | cons bh bt =>
      simp only [strLtb] at h ⊢
      by_cases hab : ah.toNat < bh.toNat
      · rw [if_neg (by omega : ¬ bh.toNat < ah.toNat), if_pos hab]
      · rw [if_neg hab] at h
        by_cases hba : bh.toNat < ah.toNat
        · rw [if_pos hba] at h; exact absurd h (by simp)
        · rw [if_neg hba] at h
          rw [if_neg hba, if_neg hab]
          exact ih bt h

theorem strLtb_cotrans :
    ∀ a b c : List Char, strLtb a c = true →
      strLtb a b = true ∨ strLtb b c = true := by
  intro a
  induction a with
  | nil =>
    intro b c h
    cases c with
    | nil => simp [strLtb] at h
    | cons ch ct =>
      cases b with
      | nil => exact Or.inr h
      | cons bh bt => exact Or.inl rfl
  | cons ah at2 ih =>
    intro b c h
    cases c with
    | nil => simp [strLtb] at h
    | cons ch ct =>
      cases b with
      | nil => exact Or.inr rfl
      | cons bh bt =>
        simp only [strLtb] at h ⊢
        by_cases hab : ah.toNat < bh.toNat
        · exact Or.inl (by rw [if_pos hab])
        · by_cases hac : ah.toNat < ch.toNat
          · refine Or.inr ?_
            rw [if_pos (by omega : bh.toNat < ch.toNat)]
          · rw [if_neg hac] at h
            by_cases hca : ch.toNat < ah.toNat
            · rw [if_pos hca] at h; exact absurd h (by simp)
            · rw [if_neg hca] at h
              by_cases hba : bh.toNat < ah.toNat
              · refine Or.inr ?_
                rw [if_pos (by omega : bh.toNat < ch.toNat)]
              · rcases ih bt ct h with h1 | h1
                · exact Or.inl (by rw [if_neg hab, if_neg hba]; exact h1)
                · refine Or.inr ?_
                  rw [if_neg (by omega : ¬ bh.toNat < ch.toNat),
                    if_neg (by omega : ¬ ch.toNat < bh.toNat)]
                  exact h1

theorem strLeb_refl (a : String) : strLeb a a = true := by
  simp [strLeb, strLtb_irrefl]

theorem strLeb_of_ltb (a b : String) (h : strLtb a.data b.data = true) :
    strLeb a b = true := by
  simp [strLeb, strLtb_asymm a.data b.data h]

theorem strLeb_false_ltb (a b : String) (h : strLeb a b = false) :
    strLtb b.data a.data = true := by
  simpa [strLeb] using h

theorem strLeb_trans (a b c : String) (h1 : strLeb a b = true)
    (h2 : strLeb b c = true) : strLeb a c = true := by
  simp only [strLeb, Bool.not_eq_true'] at h1 h2 ⊢
  by_cases hca : strLtb c.data a.data = true
  · rcases strLtb_cotrans c.data b.data a.data hca with h | h
    · exact absurd h (by simp [h2])
    · exact absurd h (by simp [h1])
  · simpa using hca

/-! ### Claims about the cursor pipeline -/

/-- C2: every watermark write of a run is the id of a post that reached a
terminal outcome (empty stripped content, or classified with confidence at
or above the threshold), and the id of a post whose classification failed is
never written (its id unique in the batch); the watermark is never advanced
speculatively to an unprocessed id. -/
theorem watermark_writes_terminal_only (env : Env) (stored : Option String)
    (posts : List Post) (p : Post) (pid : String)
    (hp : p ∈ posts) (hid : p.id = some pid)
    (hfail : failsClassification env p)
    (huniq : ∀ q ∈ posts, q.id = some pid → q = p) :
    pid ∉ (runMain env stored posts).writes
    ∧ ∀ w ∈ (runMain env stored posts).writes,
        ∃ q ∈ posts, q.id = some w ∧ terminalOutcome env q := by
  have hw : (runMain env stored posts).writes
      = posts.reverse.filterMap (writePred env stored) := by
    rw [runMain_char]
  have hall : ∀ w ∈ (runMain env stored posts).writes,
      ∃ q ∈ posts, q.id = some w ∧ terminalOutcome env q := by
    intro w hwm
    rw [hw] at hwm
    obtain ⟨q, hqmem, hq⟩ := List.mem_filterMap.mp hwm
    obtain ⟨hqid, -, -, hterm⟩ := writePred_some env stored q w hq
    exact ⟨q, List.mem_reverse.mp hqmem, hqid, hterm⟩
  refine ⟨?_, hall⟩
  intro hcontra
  obtain ⟨q, hqmem, hqid, hqterm⟩ := hall pid hcontra
  have hqp : q = p := huniq q hqmem hqid
  subst hqp
  obtain ⟨htxt, hbad⟩ := hfail
  rcases hqterm with hemp | hok
  · exact htxt hemp
  · obtain ⟨-, hcls, hconf⟩ := hok
    rcases hbad with h | h
    · exact hcls h
    · exact hconf h

/-- Witness for C2: post id 1 of `postsFail` fails to parse, so its id is
never written, while every id that is written belongs to a terminal post. -/
theorem watermark_writes_terminal_only_witness :
    ("1") ∉ (runMain envBad none postsFail).writes
    ∧ ∀ w ∈ (runMain envBad none postsFail).writes,
        ∃ q ∈ postsFail, q.id = some w ∧ terminalOutcome envBad q :=
  watermark_writes_terminal_only envBad none postsFail postFail ("1")
    (by decide) (by decide) ⟨by decide, Or.inl (by decide)⟩ (by decide)

/-- C8: for a post that is successfully classified, the loop hands exactly
one message to `send_telegram_message` iff the label is bullish or bearish,
and advances the watermark to the post's id for every credential state and
every notification-POST outcome (the env is universally quantified), so a
notification failure never blocks the watermark. -/
theorem notify_once_and_watermark_advances (env : Env) (lastP : Option String)
    (st : MState) (post : Post) (pid : String) (c : List Char)
    (hid : post.id = some pid) (hne : pid ≠ (""))
    (hskip : truthyLe lastP pid = false)
    (htxt : strip_html post.content ≠ (""))
    (hcls : (analyze_post_with_groq (env.responses (strip_html post.content))).1 = some c)
    (hconf : ¬ (analyze_post_with_groq (env.responses (strip_html post.content))).2.2
        < CONFIDENCE_THRESHOLD) :
    (processPost env lastP st post).db = some pid
    ∧ (processPost env lastP st post).writes = st.writes ++ [pid]
    ∧ (processPost env lastP st post).sent
        = st.sent ++ (if c = String.toList ("bullish") ∨ c = String.toList ("bearish")
            then [(mkMessage c (strip_html post.content)
                    (analyze_post_with_groq (env.responses (strip_html post.content))).2.1,
                  send_telegram_message env.creds (env.notifyOutcome
                    (mkMessage c (strip_html post.content)
                      (analyze_post_with_groq (env.responses (strip_html post.content))).2.1)))]
            else []) := by
  have hwp : writePred env lastP post = some pid :=
    writePred_some_of env lastP post pid hid hne hskip
      (Or.inr ⟨htxt, by rw [hcls]; simp, hconf⟩)
  have hsd : sentDelta env lastP post
      = (if c = String.toList ("bullish") ∨ c = String.toList ("bearish")
          then [(mkMessage c (strip_html post.content)
                  (analyze_post_with_groq (env.responses (strip_html post.content))).2.1,
                send_telegram_message env.creds (env.notifyOutcome
                  (mkMessage c (strip_html post.content)
                    (analyze_post_with_groq (env.responses (strip_html post.content))).2.1)))]
          else []) := by
    simp only [sentDelta, hid]
    rw [if_neg (show ¬ ((pid == ("")) = true) from by simpa using hne)]
    rw [if_neg (show ¬ (truthyLe lastP pid = true) from by simp [hskip])]
    rw [if_neg (show ¬ ((strip_html post.content == ("")) = true) from by simpa using htxt)]
    simp only [hcls]
    rw [if_neg hconf]
  rw [processPost_char, hwp, hsd]
  exact ⟨rfl, rfl, rfl⟩

/-- Witness for C8 on a concrete bullish post with failing notification
POST (`envGood.notifyOutcome` always raises): the message is still handed to
`send_telegram_message` exactly once and the watermark advances to id 1. -/
theorem notify_once_and_watermark_advances_witness :
    (processPost envGood none st0 postLow).db = some ("1")
    ∧ (processPost envGood none st0 postLow).writes = st0.writes ++ [("1")]
    ∧ (processPost envGood none st0 postLow).sent
        = st0.sent ++ (if String.toList ("bullish") = String.toList ("bullish")
              ∨ String.toList ("bullish") = String.toList ("bearish")
            then [(mkMessage (String.toList ("bullish")) (strip_html postLow.content)
                    (analyze_post_with_groq (envGood.responses (strip_html postLow.content))).2.1,
                  send_telegram_message envGood.creds (envGood.notifyOutcome
                    (mkMessage (String.toList ("bullish")) (strip_html postLow.content)
                      (analyze_post_with_groq (envGood.responses (strip_html postLow.content))).2.1)))]
            else []) :=
  notify_once_and_watermark_advances envGood none st0 postLow ("1")
    (String.toList ("bullish")) (by decide) (by decide) (by decide) (by decide)
    (by decide) (by decide)

/-- C1 counterexample: with a fresh watermark, posts newest-first
[id 2 (empty), id 1 (content, classified bullish with confidence 1)], every
parse and write succeeds, yet the final watermark is id 2 — the maximum id
of all items — and not id 1, the maximum id among items whose stripped
content was non-empty and successfully classified. -/
theorem watermark_trailing_empty_cex :
    (runMain envGood none postsTwo).db = some ("2")
    ∧ strip_html (("x")) ≠ ("") ∧ strip_html (("")) = ("")
    ∧ (analyze_post_with_groq (envGood.responses (strip_html (("x"))))).2.2 = 1
    ∧ ¬ ((some (("2")) : Option String) = some ("1")) :=
  ⟨by decide, by decide, by decide, by decide, by decide⟩

/-- C1 amended: after a run with a fresh watermark in which every
classification of a non-empty post succeeds, the persisted watermark is the
id of the newest post, which under strictly increasing ids is the maximum id
of all items (content-empty items advance the watermark too, so a trailing
empty item pushes it past the last classified id). -/
theorem watermark_after_successful_run (env : Env) (posts : List Post)
    (p0 : Post) (pid0 : String)
    (hhead : posts.head? = some p0) (hid0 : p0.id = some pid0)
    (hpid0 : pid0 ≠ (""))
    (hsucc : ∀ p ∈ posts, strip_html p.content ≠ ("") → classifiedOk env p)
    (hinc : List.Pairwise (fun p q => idLtB p q = true) posts.reverse) :
    (runMain env none posts).db = some pid0
    ∧ ∀ p ∈ posts, ∀ pid, p.id = some pid → strLeb pid pid0 = true := by
  constructor
  · obtain ⟨rest, hposts⟩ : ∃ rest, posts = p0 :: rest := by
      cases hps : posts with
      | nil => rw [hps] at hhead; simp at hhead
      | cons a t =>
        rw [hps] at hhead
        simp at hhead
        exact ⟨t, by rw [hhead]⟩
    subst hposts
    unfold runMain
    rw [show (p0 :: rest).reverse = rest.reverse ++ [p0] from by simp]
    rw [List.foldl_append]
    simp only [List.foldl_cons, List.foldl_nil]
    rw [processPost_char]
    have hterm : terminalOutcome env p0 := by
      by_cases hemp : strip_html p0.content = ("")
      · exact Or.inl hemp
      · exact Or.inr (hsucc p0 (by simp) hemp)
    rw [writePred_some_of env none p0 pid0 hid0 hpid0 rfl hterm]
    rfl
  · intro p hp pid hpid
    have hgl : posts.reverse.getLast? = some p0 := by
      rw [List.getLast?_reverse, hhead]
    rcases pairwise_getLast_ub hinc hgl p (List.mem_reverse.mpr hp) with h | h
    · rw [h] at hpid
      rw [hid0] at hpid
      rw [← Option.some.inj hpid]
      exact strLeb_refl pid0
    · simp only [idLtB, hpid, hid0] at h
      exact strLeb_of_ltb pid pid0 h

/-- Witness for C1 amended at `postsTwo` under `envGood`: the watermark ends
at id 2, the maximum id. -/
theorem watermark_after_successful_run_witness :
    (runMain envGood none postsTwo).db = some ("2")
    ∧ ∀ p ∈ postsTwo, ∀ pid, p.id = some pid → strLeb pid ("2") = true :=
  watermark_after_successful_run envGood postsTwo
    { id := some ("2"), content := ("") } ("2") (by decide) (by decide)
    (by decide)
    (by
      intro p hp hne
      simp only [postsTwo, List.mem_cons, List.mem_singleton] at hp
      rcases hp with h1 | h1 | h1
      · subst h1; exact absurd (by decide) hne
      · subst h1; exact ⟨by decide, by decide, by decide⟩
      · exact absurd h1 (by simp))
    (by decide)

/-- C6: if every post of the batch reached a terminal outcome in the first
run (skipped by the stored watermark, content-empty, or successfully
classified) and the ids are strictly increasing oldest-first, then running
the pipeline again on the same batch with the persisted watermark is a
no-op: no notification, no classifier call, no write, watermark unchanged. -/
theorem second_run_noop (env : Env) (stored : Option String) (posts : List Post)
    (hinc : List.Pairwise (fun p q => idLtB p q = true) posts.reverse)
    (hterm : ∀ p ∈ posts, ∀ pid, p.id = some pid → pid ≠ ("") →
        truthyLe stored pid = true ∨ terminalOutcome env p) :
    runMain env (runMain env stored posts).db posts
      = { db := (runMain env stored posts).db, sent := [], calls := 0,
          writes := [] } := by
  have hdb : (runMain env stored posts).db
      = lastWriteOr stored (posts.reverse.filterMap (writePred env stored)) := by
    rw [runMain_char]
  have hdom : ∀ p ∈ posts, ∀ pid, p.id = some pid → pid ≠ ("") →
      truthyLe (runMain env stored posts).db pid = true := by
    intro p hp pid hpid hpne
    rw [hdb]
    cases hWl : (posts.reverse.filterMap (writePred env stored)).getLast? with
    | none =>
      have hWnil : posts.reverse.filterMap (writePred env stored) = [] :=
        List.getLast?_eq_none_iff.mp hWl
      have hsk : truthyLe stored pid = true := by
        rcases hterm p hp pid hpid hpne with h | h
        · exact h
        · by_cases hsk2 : truthyLe stored pid = true
          · exact hsk2
          · exfalso
            have hskf : truthyLe stored pid = false := by
              cases htr : truthyLe stored pid
              · rfl
              · exact absurd htr hsk2
            have hwp := writePred_some_of env stored p pid hpid hpne hskf h
            have hmem : pid ∈ posts.reverse.filterMap (writePred env stored) :=
              List.mem_filterMap.mpr ⟨p, List.mem_reverse.mpr hp, hwp⟩
            rw [hWnil] at hmem
            simp at hmem
      rw [hWnil]
      simpa [lastWriteOr] using hsk
    | some wl =>
      have hlw : lastWriteOr stored (posts.reverse.filterMap (writePred env stored))
          = some wl := by
        unfold lastWriteOr
        rw [hWl]
      rw [hlw]
      obtain ⟨q, hqmem, hq⟩ :=
        List.mem_filterMap.mp (mem_of_getLast?_some hWl)
      obtain ⟨hqid, hwlne, hwlskip, -⟩ := writePred_some env stored q wl hq
      have hple : strLeb pid wl = true := by
        by_cases hsk : truthyLe stored pid = true
        · cases hst : stored with
          | none => rw [hst] at hsk; simp [truthyLe] at hsk
          | some w0 =>
            rw [hst] at hsk hwlskip
            simp only [truthyLe, Bool.and_eq_true, Bool.not_eq_true'] at hsk
            obtain ⟨hw0ne, hpw0⟩ := hsk
            have hwlw0 : strLeb wl w0 = false := by
              simp only [truthyLe, Bool.and_eq_true, Bool.not_eq_true'] at hwlskip
              rcases Bool.and_eq_false_iff.mp hwlskip with h | h
              · simp [hw0ne] at h
              · exact h
            exact strLeb_trans pid w0 wl hpw0
              (strLeb_of_ltb w0 wl (strLeb_false_ltb wl w0 hwlw0))
        · have hskf : truthyLe stored pid = false := by
            cases htr : truthyLe stored pid
            · rfl
            · exact absurd htr hsk
          rcases hterm p hp pid hpid hpne with h | h
          · exact absurd h hsk
          · have hwp := writePred_some_of env stored p pid hpid hpne hskf h
            have hpmem : pid ∈ posts.reverse.filterMap (writePred env stored) :=
              List.mem_filterMap.mpr ⟨p, List.mem_reverse.mpr hp, hwp⟩
            have hWpw : (posts.reverse.filterMap (writePred env stored)).Pairwise
                (fun a b : String => strLtb a.data b.data = true) := by
              apply List.pairwise_filterMap.mpr
              apply List.Pairwise.imp ?_ hinc
              intro a b hab x hx y hy
              rw [Option.mem_def] at hx hy
              obtain ⟨hxa, -, -, -⟩ := writePred_some env stored a x hx
              obtain ⟨hyb, -, -, -⟩ := writePred_some env stored b y hy
              simpa only [idLtB, hxa, hyb] using hab
            rcases pairwise_getLast_ub hWpw hWl pid hpmem with he | hlt
            · rw [he]; exact strLeb_refl wl
            · exact strLeb_of_ltb pid wl hlt
      show (!(wl == ("")) && strLeb pid wl) = true
      rw [hple]
      simp [hwlne]
  rw [hdb] at hdom ⊢
  unfold runMain
  rw [foldl_noop env
    (lastWriteOr stored (posts.reverse.filterMap (writePred env stored)))
    posts.reverse _
    (fun p hpm pid hpid hpne => hdom p (List.mem_reverse.mp hpm) pid hpid hpne)]

/-- Witness for C6 at `postsTwo` under `envGood`: a second run with the
persisted watermark changes nothing and produces no effects. -/
theorem second_run_noop_witness :
    runMain envGood (runMain envGood none postsTwo).db postsTwo
      = { db := (runMain envGood none postsTwo).db, sent := [], calls := 0,
          writes := [] } :=
  second_run_noop envGood none postsTwo (by decide)
    (by
      intro p hp pid hpid hpne
      simp only [postsTwo, List.mem_cons, List.mem_singleton] at hp
      rcases hp with h1 | h1 | h1
      · subst h1; exact Or.inr (Or.inl (by decide))
      · subst h1; exact Or.inr (Or.inr ⟨by decide, by decide, by decide⟩)
      · exact absurd h1 (by simp))

/-! ### Claims about the resilient fetch layer -/

/-- C4 (code bug): when every response has a status that is neither 200, nor
in {403, 429, 502, 503}, nor ≥ 400 (for example 204), `raise_for_status()`
raises nothing, the loop body falls through without incrementing `attempt`,
and the loop never terminates: after any number of iterations it is still
running with `attempt = 0`, having issued that many GETs — past any budget. -/
theorem fetch_loop_unbounded_on_sub400_status (k : Nat) :
    fetchRun none (fun _ => none) 5 (fun _ => HttpOutcome.status 204 true) k
      = FetchRes.running
          ⟨k, 0, none, List.replicate k (FetchEvent.attemptIssued none)⟩ := by
  induction k with
  | zero => rfl
  | succ n ih =>
    simp only [fetchRun]
    rw [ih, List.replicate_succ']
    rfl

theorem fetch_step_trace (manual : Option String) (pick : Nat → Option String)
    (maxA : Nat) (outcomes : Nat → HttpOutcome) (s : FetchState) :
    traceOf (fetch_step manual pick maxA outcomes s)
      = s.trace ++ [FetchEvent.attemptIssued s.proxy] := by
  simp only [fetch_step]
  split_ifs <;> rfl

theorem sleepEvents_append_attempt (tr : List FetchEvent) (p : Option String) :
    sleepEvents (tr ++ [FetchEvent.attemptIssued p]) = sleepEvents tr := by
  simp [sleepEvents, List.filter_append]

/-- C5 amended: the retry loop of `fetch_json_with_retries` performs no sleep
at all — its event trace never contains a sleep event, for any outcome
sequence, route choices, budget and number of iterations; retries are issued
immediately. -/
theorem fetch_no_backoff_sleep (manual : Option String)
    (pick : Nat → Option String) (maxA : Nat) (outcomes : Nat → HttpOutcome)
    (k : Nat) :
    sleepEvents (traceOf (fetchRun manual pick maxA outcomes k)) = [] := by
  induction k with
  | zero => rfl
  | succ n ih =>
    simp only [fetchRun]
    cases hr : fetchRun manual pick maxA outcomes n with
    | running s =>
      rw [hr] at ih
      show sleepEvents (traceOf (fetch_step manual pick maxA outcomes s)) = []
      rw [fetch_step_trace, sleepEvents_append_attempt]
      exact ih
    | ok s =>
      rw [hr] at ih
      exact ih
    | fatal s =>
      rw [hr] at ih
      exact ih

/-- C5 counterexample: a run with six consecutive failures reaches the fatal
exit after six attempts (five retries) with an event trace of six GETs and
zero sleeps — there is no backoff delay before any retry. -/
theorem fetch_backoff_missing_cex :
    fetchRun none (fun _ => none) 5 (fun _ => HttpOutcome.exc) 6
      = FetchRes.fatal
          ⟨6, 6, none, List.replicate 6 (FetchEvent.attemptIssued none)⟩
    ∧ sleepEvents
        (traceOf (fetchRun none (fun _ => none) 5 (fun _ => HttpOutcome.exc) 6)) = []
    ∧ (traceOf (fetchRun none (fun _ => none) 5 (fun _ => HttpOutcome.exc) 6)).length
        = 6 :=
  ⟨by decide, by decide, by decide⟩

/-! ### Claim about the proxy pool -/

/-- C9: with every provider failing or yielding an empty candidate pool,
`pick_free_proxy` returns `None` (the embedding is a total function — the
per-provider `except` swallows each failure), and a failing provider at the
head of the list just moves the scan to the next provider. -/
theorem proxy_pool_empty_returns_none (timedOut : Nat → Bool)
    (works : String → Bool) (i j : Nat)
    (providers rest : List (Option (List String)))
    (h : ∀ p ∈ providers, providerEmpty p = true) :
    pick_free_proxy timedOut works i providers = none
    ∧ pick_free_proxy timedOut works j (none :: rest)
        = (if timedOut j = true then none
           else pick_free_proxy timedOut works (j + 1) rest) := by
  have main : ∀ (ps : List (Option (List String))),
      (∀ p ∈ ps, providerEmpty p = true) → ∀ i2,
      pick_free_proxy timedOut works i2 ps = none := by
    intro ps
    induction ps with
    | nil => intro _ _; rfl
    | cons p pt ih =>
      intro hall i2
      simp only [pick_free_proxy]
      by_cases ht : timedOut i2 = true
      · rw [if_pos ht]
      · rw [if_neg ht]
        cases hp : p with
        | none => exact ih (fun q hq => hall q (by simp [hq])) (i2 + 1)
        | some lines =>
          have hpe : (providerPool lines).isEmpty = true := by
            have := hall p (by simp)
            rw [hp] at this
            simpa [providerEmpty] using this
          dsimp only
          rw [if_pos hpe]
          exact ih (fun q hq => hall q (by simp [hq])) (i2 + 1)
  refine ⟨main providers h i, ?_⟩
  by_cases ht : timedOut j = true
  · simp [pick_free_proxy, ht]
  · simp [pick_free_proxy, ht]

/-- Witness for C9: one raising provider and one all-blank provider produce
`none`, and the raising head provider is skipped, not fatal. -/
theorem proxy_pool_empty_returns_none_witness :
    pick_free_proxy (fun _ => false) (fun _ => false) 0
        [none, some [(""), ("  ")]] = none
    ∧ pick_free_proxy (fun _ => false) (fun _ => false) 0
          (none :: [some [("  ")]])
        = (if (fun _ => false) 0 = true then none
           else pick_free_proxy (fun _ => false) (fun _ => false) (0 + 1)
             [some [("  ")]]) :=
  proxy_pool_empty_returns_none (fun _ => false) (fun _ => false) 0 0
    [none, some [(""), ("  ")]] [some [("  ")]] (by decide)

end SocialMonitor
